import Mathlib

/-!
Verification of the patch ordering and reconciliation logic of the
festivalpatch builder (`src/app/festival/builder/page.tsx` and the
techlist / matrix pages).  Persisted rows are modelled as Lean
structures, the per-row store updates issued by the pages as explicit
list transformations, and the sorting comparators via the stable
`List.insertionSort` (the ECMAScript `Array.prototype.sort` is stable).
-/

namespace FestivalPatch

/-- A persisted row of the `patch_channels` table (the `PatchChannel` type of the builder): a per-event numbered instantiation of a canonical
channel. -/
structure PatchChannel where
  id : Nat
  channel_number : Nat
  canonical_channel_id : Option Nat
deriving DecidableEq

/-- One `update({ channel_number: n }).eq("id", i)` statement applied to a
single row: if the id of the row matches, its channel number becomes `n`. -/
def applyUpd (u : Nat × Nat) (r : PatchChannel) : PatchChannel :=
  if r.id = u.1 then { r with channel_number := u.2 } else r

/-- The effect of one `update` statement on the whole stored table. -/
def updateChannelNumber (store : List PatchChannel) (i n : Nat) : List PatchChannel :=
  store.map (applyUpd (i, n))

/-- Issue a list of `(id, channel_number)` updates one after the other. -/
def runUpdates (store : List PatchChannel) (ups : List (Nat × Nat)) : List PatchChannel :=
  ups.foldl (fun s u => updateChannelNumber s u.1 u.2) store

/-- The updates issued by one phase of `applyChannelOrder`: the row at
position `idx` of `orderedIds` is assigned number `idx + off`. -/
def phaseUpdates (orderedIds : List Nat) (off : Nat) : List (Nat × Nat) :=
  orderedIds.enum.map (fun p => (p.2, p.1 + off))

/-- Phase 1 of `applyChannelOrder`: `channel_number := idx + 1000`. -/
def phase1Updates (orderedIds : List Nat) : List (Nat × Nat) :=
  phaseUpdates orderedIds 1000

/-- Phase 2 of `applyChannelOrder`: `channel_number := idx + 1`. -/
def phase2Updates (orderedIds : List Nat) : List (Nat × Nat) :=
  phaseUpdates orderedIds 1

/-- `applyChannelOrder` (builder page, lines 594-606): the two-step update
that renumbers the rows named by `orderedIds` to `1..N`, going through
temporary numbers `1000..999+N` first to avoid the per-event uniqueness
constraint on `channel_number`. -/
def applyChannelOrder (store : List PatchChannel) (orderedIds : List Nat) : List PatchChannel :=
  runUpdates (runUpdates store (phase1Updates orderedIds)) (phase2Updates orderedIds)

/-- The cumulative effect of a list of updates on one row. -/
def foldUpds (ups : List (Nat × Nat)) (r : PatchChannel) : PatchChannel :=
  ups.foldl (fun r u => applyUpd u r) r

theorem applyUpd_id (u : Nat × Nat) (r : PatchChannel) : (applyUpd u r).id = r.id := by
  unfold applyUpd; split <;> rfl

theorem foldUpds_cons (u : Nat × Nat) (ups : List (Nat × Nat)) (r : PatchChannel) :
    foldUpds (u :: ups) r = foldUpds ups (applyUpd u r) := rfl

theorem foldUpds_id (ups : List (Nat × Nat)) (r : PatchChannel) :
    (foldUpds ups r).id = r.id := by
  induction ups generalizing r with
  | nil => rfl
  | cons u ups ih => rw [foldUpds_cons, ih, applyUpd_id]

theorem runUpdates_eq_map (store : List PatchChannel) (ups : List (Nat × Nat)) :
    runUpdates store ups = store.map (foldUpds ups) := by
  induction ups generalizing store with
  | nil =>
      show store = store.map (foldUpds [])
      induction store with
      | nil => rfl
      | cons a l ihs => simp only [List.map_cons, foldUpds, List.foldl_nil, ← ihs]
  | cons u ups ih =>
      have h1 : runUpdates store (u :: ups) = runUpdates (updateChannelNumber store u.1 u.2) ups := rfl
      rw [h1, ih, updateChannelNumber, List.map_map]
      rfl

theorem foldUpds_of_not_mem (ups : List (Nat × Nat)) (r : PatchChannel)
    (h : r.id ∉ ups.map Prod.fst) : foldUpds ups r = r := by
  induction ups with
  | nil => rfl
  | cons u ups ih =>
      simp only [List.map_cons, List.mem_cons, not_or] at h
      rw [foldUpds_cons, show applyUpd u r = r from if_neg h.1]
      exact ih h.2

theorem foldUpds_of_mem (ups : List (Nat × Nat)) (r : PatchChannel) (v : Nat)
    (hnd : (ups.map Prod.fst).Nodup) (hm : (r.id, v) ∈ ups) :
    foldUpds ups r = { r with channel_number := v } := by
  induction ups generalizing r with
  | nil => cases hm
  | cons u ups ih =>
      simp only [List.map_cons, List.nodup_cons] at hnd
      rcases List.mem_cons.mp hm with h | h
      · rw [foldUpds_cons, show applyUpd u r = { r with channel_number := v } from by
          rw [← h]; unfold applyUpd; simp]
        apply foldUpds_of_not_mem
        have hu : u.1 = r.id := by rw [← h]
        simpa [hu] using hnd.1
      · by_cases hid : r.id = u.1
        · exact absurd (by rw [← hid] at hnd ⊢; exact List.mem_map_of_mem Prod.fst h) hnd.1
        · rw [foldUpds_cons, show applyUpd u r = r from if_neg hid]
          exact ih r hnd.2 h

theorem length_phaseUpdates (ids : List Nat) (off : Nat) :
    (phaseUpdates ids off).length = ids.length := by
  simp [phaseUpdates, List.enum_eq_enumFrom]

theorem phaseUpdates_getElem (ids : List Nat) (off : Nat) (i : Nat) (hi : i < ids.length)
    (hi' : i < (phaseUpdates ids off).length) :
    (phaseUpdates ids off)[i] = (ids[i], i + off) := by
  simp [phaseUpdates, List.enum_eq_enumFrom, List.getElem_enumFrom]

theorem phaseUpdates_map_fst (ids : List Nat) (off : Nat) :
    (phaseUpdates ids off).map Prod.fst = ids := by
  show (ids.enum.map (fun p => (p.2, p.1 + off))).map Prod.fst = ids
  rw [List.map_map]
  rw [show (Prod.fst ∘ fun p : Nat × Nat => (p.2, p.1 + off)) = Prod.snd from rfl]
  rw [List.enum_eq_enumFrom, List.enumFrom_map_snd]

theorem mem_phaseUpdates {ids : List Nat} {k v off : Nat} (hnd : ids.Nodup) :
    (k, v) ∈ phaseUpdates ids off ↔ k ∈ ids ∧ v = ids.indexOf k + off := by
  constructor
  · intro h
    rcases List.mem_iff_getElem.mp h with ⟨i, hi, he⟩
    have hi' : i < ids.length := by simpa [length_phaseUpdates] using hi
    rw [phaseUpdates_getElem ids off i hi' hi] at he
    have hk : ids[i] = k := (Prod.mk.injEq _ _ _ _ ▸ he).1
    have hv : i + off = v := (Prod.mk.injEq _ _ _ _ ▸ he).2
    refine ⟨hk ▸ List.getElem_mem hi', ?_⟩
    rw [← hk, ← hv, List.indexOf_getElem hnd i hi']
  · rintro ⟨hk, rfl⟩
    have hlt : ids.indexOf k < ids.length := List.indexOf_lt_length.mpr hk
    have hlt' : ids.indexOf k < (phaseUpdates ids off).length := by
      simpa [length_phaseUpdates] using hlt
    have := phaseUpdates_getElem ids off _ hlt hlt'
    rw [List.getElem_indexOf hlt] at this
    exact List.mem_iff_getElem.mpr ⟨_, hlt', this⟩

theorem foldUpds_phase {ids : List Nat} (hnd : ids.Nodup) (off : Nat) (r : PatchChannel)
    (h : r.id ∈ ids) :
    foldUpds (phaseUpdates ids off) r = { r with channel_number := ids.indexOf r.id + off } :=
  foldUpds_of_mem _ _ _ (by rw [phaseUpdates_map_fst]; exact hnd)
    ((mem_phaseUpdates hnd).mpr ⟨h, rfl⟩)

theorem applyChannelOrder_eq (store : List PatchChannel) (ids : List Nat)
    (hnd : ids.Nodup) (hsub : ∀ r ∈ store, r.id ∈ ids) :
    applyChannelOrder store ids
      = store.map (fun r => { r with channel_number := ids.indexOf r.id + 1 }) := by
  unfold applyChannelOrder
  rw [runUpdates_eq_map, runUpdates_eq_map, List.map_map]
  apply List.map_congr_left
  intro r hr
  show foldUpds (phase2Updates ids) (foldUpds (phase1Updates ids) r) = _
  rw [show phase1Updates ids = phaseUpdates ids 1000 from rfl,
    foldUpds_phase hnd 1000 r (hsub r hr)]
  exact foldUpds_phase hnd 1 _ (hsub r hr)

/-- C1: for every list of persisted patch-channel ids given as the target
order, after both phases of `applyChannelOrder` the record whose id sits at
position `i` of the target list holds `channel_number = i + 1`, and the
channel numbers of the store form exactly `{1, ..., N}` (the permutation of
`List.range' 1 N`), no matter what numbers the records held before. -/
theorem c1_applyChannelOrder_dense (store : List PatchChannel) (ids : List Nat)
    (hnd : ids.Nodup) (hperm : List.Perm (store.map PatchChannel.id) ids) :
    (∀ i : Fin ids.length, ∀ r ∈ applyChannelOrder store ids,
        r.id = ids.get i → r.channel_number = (i : Nat) + 1) ∧
    List.Perm ((applyChannelOrder store ids).map PatchChannel.channel_number)
      (List.range' 1 ids.length) := by
  have hsub : ∀ r ∈ store, r.id ∈ ids := fun r hr =>
    hperm.mem_iff.mp (List.mem_map_of_mem PatchChannel.id hr)
  have heq := applyChannelOrder_eq store ids hnd hsub
  constructor
  · intro i r hr hid
    rw [heq] at hr
    rcases List.mem_map.mp hr with ⟨r0, _, rfl⟩
    show ids.indexOf r0.id + 1 = (i : Nat) + 1
    have hid' : r0.id = ids[(i : Nat)] := by
      simpa [List.get_eq_getElem] using hid
    rw [hid', List.indexOf_getElem hnd (i : Nat) i.isLt]
  · rw [heq, List.map_map]
    have h1 : store.map (PatchChannel.channel_number ∘
        fun r => { r with channel_number := ids.indexOf r.id + 1 })
        = (store.map PatchChannel.id).map (fun k => ids.indexOf k + 1) := by
      rw [List.map_map]; rfl
    have h3 : ids.map (fun k => ids.indexOf k + 1) = List.range' 1 ids.length := by
      apply List.ext_getElem
      · simp
      · intro i hh1 hh2
        simp [List.indexOf_getElem hnd, Nat.add_comm]
    rw [h1, ← h3]
    exact hperm.map (fun k => ids.indexOf k + 1)

/-- Witness for C1 at a concrete store and target order. -/
theorem c1_applyChannelOrder_dense_witness :
    (∀ i : Fin ([12, 10, 11] : List Nat).length,
        ∀ r ∈ applyChannelOrder
          [⟨10, 7, none⟩, ⟨11, 7, some 3⟩, ⟨12, 3, none⟩] [12, 10, 11],
        r.id = ([12, 10, 11] : List Nat).get i → r.channel_number = (i : Nat) + 1) ∧
    List.Perm ((applyChannelOrder [⟨10, 7, none⟩, ⟨11, 7, some 3⟩, ⟨12, 3, none⟩]
        [12, 10, 11]).map PatchChannel.channel_number) (List.range' 1 3) :=
  c1_applyChannelOrder_dense _ _ (by decide) (by decide)

/-- For a partially committed phase (any sublist of the updates of the phase, since
the `Promise.all` batch commits in no fixed order), each row named by the
target list is either untouched or already carries its phase number. -/
theorem foldUpds_sublist_cases {ids : List Nat} (hnd : ids.Nodup) (off : Nat)
    {ups : List (Nat × Nat)} (hs : ups.Sublist (phaseUpdates ids off))
    (r : PatchChannel) :
    foldUpds ups r = r ∨
      (r.id ∈ ids ∧
        foldUpds ups r = { r with channel_number := ids.indexOf r.id + off }) := by
  by_cases hmem : r.id ∈ ups.map Prod.fst
  · right
    obtain ⟨⟨k, v⟩, hkv, hk⟩ := List.mem_map.mp hmem
    have hkv' : (k, v) ∈ phaseUpdates ids off := hs.subset hkv
    obtain ⟨hkmem, hv⟩ := (mem_phaseUpdates hnd).mp hkv'
    have hknd : (ups.map Prod.fst).Nodup := by
      have h1 : (ups.map Prod.fst).Sublist ids := by
        have := hs.map Prod.fst
        rwa [phaseUpdates_map_fst] at this
      exact h1.nodup hnd
    have hk' : k = r.id := hk
    subst hk'
    exact ⟨hkmem, hv ▸ foldUpds_of_mem ups r v hknd hkv⟩
  · exact Or.inl (foldUpds_of_not_mem _ _ hmem)

/-- C3: under the documented invariant on the prior state (pairwise distinct
channel numbers all below the phase-1 offset `1000`, at most `999` rows),
no intermediate state of either phase of `applyChannelOrder` — with the
updates of a phase committing in any order, i.e. for every sublist of the updates of a
phase — contains two rows with the same `channel_number`, so the
per-event uniqueness constraint is never violated mid-operation. -/
theorem c3_applyChannelOrder_no_transient_collision
    (store : List PatchChannel) (ids : List Nat)
    (hnd : ids.Nodup) (hperm : List.Perm (store.map PatchChannel.id) ids)
    (hlt : ∀ r ∈ store, r.channel_number < 1000)
    (hold : (store.map PatchChannel.channel_number).Nodup)
    (hN : ids.length ≤ 999) :
    (∀ ups1, ups1.Sublist (phase1Updates ids) →
      ((runUpdates store ups1).map PatchChannel.channel_number).Nodup) ∧
    (∀ ups2, ups2.Sublist (phase2Updates ids) →
      ((runUpdates (runUpdates store (phase1Updates ids)) ups2).map
        PatchChannel.channel_number).Nodup) := by
  have hidnd : (store.map PatchChannel.id).Nodup := hperm.nodup_iff.mpr hnd
  have hstore_nd : store.Nodup := hidnd.of_map
  have hinj_id : ∀ x ∈ store, ∀ y ∈ store, x.id = y.id → x = y :=
    fun x hx y hy h => List.inj_on_of_nodup_map hidnd hx hy h
  have hinj_num : ∀ x ∈ store, ∀ y ∈ store,
      x.channel_number = y.channel_number → x = y :=
    fun x hx y hy h => List.inj_on_of_nodup_map hold hx hy h
  have hsub : ∀ r ∈ store, r.id ∈ ids := fun r hr =>
    hperm.mem_iff.mp (List.mem_map_of_mem PatchChannel.id hr)
  constructor
  · intro ups1 hs1
    have hs1' : ups1.Sublist (phaseUpdates ids 1000) := hs1
    rw [runUpdates_eq_map, List.map_map]
    apply List.Nodup.map_on _ hstore_nd
    intro x hx y hy hxy
    simp only [Function.comp] at hxy
    rcases foldUpds_sublist_cases hnd 1000 hs1' x with hcx | ⟨hxm, hcx⟩ <;>
      rcases foldUpds_sublist_cases hnd 1000 hs1' y with hcy | ⟨hym, hcy⟩ <;>
        rw [hcx, hcy] at hxy
    · exact hinj_num x hx y hy hxy
    · exact absurd hxy (by have := hlt x hx; simp only []; omega)
    · exact absurd hxy (by have := hlt y hy; simp only []; omega)
    · have hpx : ids.indexOf x.id = ids.indexOf y.id := by
        simpa using hxy
      exact hinj_id x hx y hy ((List.indexOf_inj hxm hym).mp hpx)
  · intro ups2 hs2
    have hs2' : ups2.Sublist (phaseUpdates ids 1):= hs2
    have hbase : runUpdates store (phase1Updates ids)
        = store.map (foldUpds (phaseUpdates ids 1000)) := runUpdates_eq_map store _
    rw [hbase, runUpdates_eq_map, List.map_map, List.map_map]
    apply List.Nodup.map_on _ hstore_nd
    intro x hx y hy hxy
    simp only [Function.comp] at hxy
    have hx1 : foldUpds (phaseUpdates ids 1000) x
        = { x with channel_number := ids.indexOf x.id + 1000 } :=
      foldUpds_phase hnd 1000 x (hsub x hx)
    have hy1 : foldUpds (phaseUpdates ids 1000) y
        = { y with channel_number := ids.indexOf y.id + 1000 } :=
      foldUpds_phase hnd 1000 y (hsub y hy)
    rw [hx1, hy1] at hxy
    have hxlt : ids.indexOf x.id < ids.length :=
      List.indexOf_lt_length.mpr (hsub x hx)
    have hylt : ids.indexOf y.id < ids.length :=
      List.indexOf_lt_length.mpr (hsub y hy)
    have hxid : ∀ n : Nat,
        ({ x with channel_number := n } : PatchChannel).id = x.id := fun _ => rfl
    rcases foldUpds_sublist_cases hnd 1 hs2'
        { x with channel_number := ids.indexOf x.id + 1000 } with hcx | ⟨_, hcx⟩ <;>
      rcases foldUpds_sublist_cases hnd 1 hs2'
          { y with channel_number := ids.indexOf y.id + 1000 } with hcy | ⟨_, hcy⟩ <;>
        rw [hcx, hcy] at hxy <;>
          simp only [] at hxy
    · exact hinj_id x hx y hy
        ((List.indexOf_inj (hsub x hx) (hsub y hy)).mp (by omega))
    · exact absurd hxy (by omega)
    · exact absurd hxy (by omega)
    · exact hinj_id x hx y hy
        ((List.indexOf_inj (hsub x hx) (hsub y hy)).mp (by omega))

/-- Witness for C3: the fully committed phase 1 and an interleaving where only
the second update of phase 2 has committed, on a concrete three-row store. -/
theorem c3_applyChannelOrder_no_transient_collision_witness :
    ((runUpdates [(⟨10, 2, none⟩ : PatchChannel), ⟨11, 1, some 3⟩, ⟨12, 3, none⟩]
        (phase1Updates [12, 10, 11])).map PatchChannel.channel_number).Nodup ∧
    ((runUpdates (runUpdates
        [(⟨10, 2, none⟩ : PatchChannel), ⟨11, 1, some 3⟩, ⟨12, 3, none⟩]
        (phase1Updates [12, 10, 11])) [(10, 1 + 1)]).map
      PatchChannel.channel_number).Nodup := by
  have h := c3_applyChannelOrder_no_transient_collision
    [⟨10, 2, none⟩, ⟨11, 1, some 3⟩, ⟨12, 3, none⟩] [12, 10, 11]
    (by decide) (by decide) (by decide) (by decide) (by decide)
  exact ⟨h.1 _ (List.Sublist.refl _), h.2 [(10, 1 + 1)] (by decide)⟩

/-- A row of the `band_channel_usage` table. -/
structure BandChannelUsage where
  band_id : Nat
  patch_channel_id : Nat
  is_used : Bool
  label : Option String
deriving DecidableEq

/-- The patch-channel ids used by at least one row (`pruneUnusedPatchChannels`,
builder page: the `used` set built from the usage rows fetched with
`.in("patch_channel_id", patchIds)` and `row.is_used`). -/
def usedPatchIds (patch : List PatchChannel) (usage : List BandChannelUsage) : List Nat :=
  ((usage.filter (fun u => decide (u.patch_channel_id ∈ patch.map PatchChannel.id))).filter
      (fun u => u.is_used)).map (fun u => u.patch_channel_id)

/-- The `unusedIds` of `pruneUnusedPatchChannels`. -/
def unusedPatchIds (patch : List PatchChannel) (usage : List BandChannelUsage) : List Nat :=
  (patch.filter (fun p => decide (p.id ∉ usedPatchIds patch usage))).map PatchChannel.id

/-- The rows surviving the `delete().in("id", unusedIds)` call. -/
def remainingPatch (patch : List PatchChannel) (usage : List BandChannelUsage) : List PatchChannel :=
  patch.filter (fun p => decide (p.id ∉ unusedPatchIds patch usage))

/-- `pruneUnusedPatchChannels` (builder page, lines 608-647): delete every
patch channel no usage row marks as used, then renumber the remaining rows
with `applyChannelOrder`; early returns when there is nothing to do. -/
def pruneUnusedPatchChannels (patch : List PatchChannel) (usage : List BandChannelUsage) :
    List PatchChannel :=
  if patch.isEmpty then patch
  else if (unusedPatchIds patch usage).isEmpty then patch
  else if ((remainingPatch patch usage).map PatchChannel.id).isEmpty then
    remainingPatch patch usage
  else applyChannelOrder (remainingPatch patch usage)
    ((remainingPatch patch usage).map PatchChannel.id)

theorem applyChannelOrder_map_id (store : List PatchChannel) (ids : List Nat) :
    (applyChannelOrder store ids).map PatchChannel.id = store.map PatchChannel.id := by
  rw [applyChannelOrder, runUpdates_eq_map, runUpdates_eq_map, List.map_map, List.map_map]
  apply List.map_congr_left
  intro r _
  simp [Function.comp, foldUpds_id]

theorem mem_usedPatchIds {patch : List PatchChannel} {usage : List BandChannelUsage} {i : Nat} :
    i ∈ usedPatchIds patch usage ↔
      i ∈ patch.map PatchChannel.id ∧
        ∃ u ∈ usage, u.patch_channel_id = i ∧ u.is_used = true := by
  unfold usedPatchIds
  simp only [List.mem_map, List.mem_filter, decide_eq_true_eq]
  constructor
  · rintro ⟨u, ⟨⟨hu, hpid⟩, hused⟩, rfl⟩
    exact ⟨hpid, u, hu, rfl, hused⟩
  · rintro ⟨hpid, u, hu, rfl, hused⟩
    exact ⟨u, ⟨⟨hu, hpid⟩, hused⟩, rfl⟩

theorem mem_unusedPatchIds {patch : List PatchChannel} {usage : List BandChannelUsage} {j : Nat} :
    j ∈ unusedPatchIds patch usage ↔
      j ∈ patch.map PatchChannel.id ∧ j ∉ usedPatchIds patch usage := by
  unfold unusedPatchIds
  simp only [List.mem_map, List.mem_filter, decide_eq_true_eq]
  constructor
  · rintro ⟨p, ⟨hp, hnu⟩, rfl⟩
    exact ⟨⟨p, hp, rfl⟩, hnu⟩
  · rintro ⟨⟨p, hp, rfl⟩, hnu⟩
    exact ⟨p, ⟨hp, hnu⟩, rfl⟩

theorem mem_prune_map_id (patch : List PatchChannel) (usage : List BandChannelUsage) (i : Nat) :
    i ∈ (pruneUnusedPatchChannels patch usage).map PatchChannel.id ↔
      i ∈ patch.map PatchChannel.id ∧
        ∃ u ∈ usage, u.patch_channel_id = i ∧ u.is_used = true := by
  have hrem : ∀ k : Nat, k ∈ (remainingPatch patch usage).map PatchChannel.id ↔
      (k ∈ patch.map PatchChannel.id ∧ k ∈ usedPatchIds patch usage) := by
    intro k
    unfold remainingPatch
    simp only [List.mem_map, List.mem_filter, decide_eq_true_eq]
    constructor
    · rintro ⟨p, ⟨hp, hnu⟩, rfl⟩
      refine ⟨⟨p, hp, rfl⟩, ?_⟩
      by_contra hk
      exact hnu (mem_unusedPatchIds.mpr ⟨List.mem_map_of_mem PatchChannel.id hp, hk⟩)
    · rintro ⟨⟨p, hp, rfl⟩, hk⟩
      exact ⟨p, ⟨hp, fun hin => (mem_unusedPatchIds.mp hin).2 hk⟩, rfl⟩
  unfold pruneUnusedPatchChannels
  by_cases h0 : patch.isEmpty
  · rw [if_pos h0]
    rw [List.isEmpty_iff] at h0
    subst h0
    simp
  · rw [if_neg h0]
    by_cases h1 : (unusedPatchIds patch usage).isEmpty
    · rw [if_pos h1]
      rw [List.isEmpty_iff] at h1
      constructor
      · intro hi
        refine ⟨hi, ?_⟩
        have hni : i ∉ unusedPatchIds patch usage := by rw [h1]; exact List.not_mem_nil i
        have := fun hk => hni (mem_unusedPatchIds.mpr ⟨hi, hk⟩)
        rcases not_not.mp (fun hk => (this hk : False)) with h
        exact (mem_usedPatchIds.mp h).2
      · exact fun h => h.1
    · rw [if_neg h1]
      have hgoal : ∀ l : List PatchChannel,
          l.map PatchChannel.id = (remainingPatch patch usage).map PatchChannel.id →
          (i ∈ l.map PatchChannel.id ↔
            (i ∈ patch.map PatchChannel.id ∧
              ∃ u ∈ usage, u.patch_channel_id = i ∧ u.is_used = true)) := by
        intro l hl
        rw [hl, hrem i, mem_usedPatchIds]
        constructor
        · rintro ⟨h2, _, h3⟩
          exact ⟨h2, h3⟩
        · rintro ⟨h2, h3⟩
          exact ⟨h2, h2, h3⟩
      by_cases h2 : ((remainingPatch patch usage).map PatchChannel.id).isEmpty
      · rw [if_pos h2]
        exact hgoal _ rfl
      · rw [if_neg h2]
        exact hgoal _ (applyChannelOrder_map_id _ _)

/-- C2: after pruning, a patch channel of the event survives exactly when at
least one `band_channel_usage` row with `is_used = true` refers to it; under
the scoping invariant that every usage row belongs to a band of the event, the surviving set is exactly the set of patch channels used by some
band of the event. -/
theorem c2_prune_survivors (patch : List PatchChannel) (usage : List BandChannelUsage)
    (bandIds : List Nat) (hscope : ∀ u ∈ usage, u.band_id ∈ bandIds) :
    ∀ i : Nat, i ∈ (pruneUnusedPatchChannels patch usage).map PatchChannel.id ↔
      (i ∈ patch.map PatchChannel.id ∧
        ∃ u ∈ usage, u.patch_channel_id = i ∧ u.is_used = true ∧ u.band_id ∈ bandIds) := by
  intro i
  rw [mem_prune_map_id]
  constructor
  · rintro ⟨h1, u, hu, hpc, hused⟩
    exact ⟨h1, u, hu, hpc, hused, hscope u hu⟩
  · rintro ⟨h1, u, hu, hpc, hused, _⟩
    exact ⟨h1, u, hu, hpc, hused⟩

/-- Witness for C2 at a concrete event state: one used and one orphaned
patch channel, and a usage row of a band of the event. -/
theorem c2_prune_survivors_witness :
    (10 ∈ (pruneUnusedPatchChannels
        [(⟨10, 1, some 100⟩ : PatchChannel), ⟨11, 2, some 101⟩]
        [⟨1, 10, true, none⟩]).map PatchChannel.id) ∧
    ¬ (11 ∈ (pruneUnusedPatchChannels
        [(⟨10, 1, some 100⟩ : PatchChannel), ⟨11, 2, some 101⟩]
        [⟨1, 10, true, none⟩]).map PatchChannel.id) := by
  have h := c2_prune_survivors [⟨10, 1, some 100⟩, ⟨11, 2, some 101⟩]
    [⟨1, 10, true, none⟩] [1] (by decide)
  constructor
  · exact (h 10).mpr (by decide)
  · intro hc
    exact absurd ((h 11).mp hc) (by decide)

/-- A row of the `categories` table. -/
structure Category where
  id : Nat
  name : String
  sort_order : Int
deriving DecidableEq

/-- A row of the `canonical_channels` table. -/
structure CanonicalChannel where
  id : Nat
  name : String
  default_order : Int
  category_id : Option Nat
deriving DecidableEq

/-- `t` starts the character list `s` (prefix test used by the substring
test below). -/
def strStarts : List Char → List Char → Bool
  | [], _ => true
  | _ :: _, [] => false
  | c :: t, d :: s => c == d && strStarts t s

/-- `t` occurs contiguously inside `s`: the JavaScript
`String.prototype.includes`. -/
def listHasSub : List Char → List Char → Bool
  | [], t => strStarts t []
  | d :: s, t => strStarts t (d :: s) || listHasSub s t

def strHasSub (s t : String) : Bool := listHasSub s.toList t.toList

/-- `name.toLowerCase()`, modelled character by character. -/
def lowerStr (name : String) : List Char := name.toList.map Char.toLower

/-- The fixed keyword table of `categoryOrderValue` (techlist page lines 44-59
and builder page lines 242-257). -/
def orderMap : List (List String × Nat) :=
  [(["drum", "drums"], 0), (["perc", "percussion"], 1), (["bass"], 2),
   (["guitar", "gitaar"], 3), (["keys", "key", "sample", "samples"], 4),
   (["varia", "other", "overig"], 5), (["vox", "vocal", "voice"], 6)]

/-- `categoryOrderValue`: the weight of the first keyword group one of whose
tokens occurs (case-insensitively) in the category name; `9999` when no
group matches. -/
def categoryOrderValue (name : String) : Nat :=
  match orderMap.find? (fun g => g.1.any (fun t => listHasSub (lowerStr name) t.toList)) with
  | some g => g.2
  | none => 9999

/-- The `catOrder` map of `canonicalOrder`: weight of the category of a channel,
`9999` for a null or unknown category id. -/
def catWeight (categories : List Category) (cid : Option Nat) : Nat :=
  match cid with
  | none => 9999
  | some c =>
    match (categories.map (fun k => (k.id, categoryOrderValue k.name))).lookup c with
    | some w => w
    | none => 9999

/-- The `canonicalOrder` comparator as a boolean ordering relation:
`canonicalOrderLE cats a b` holds exactly when the TypeScript comparator
returns a value `≤ 0` on `(a, b)`. -/
def canonicalOrderLE (categories : List Category) (a b : CanonicalChannel) : Bool :=
  if catWeight categories a.category_id = catWeight categories b.category_id
  then decide (a.default_order ≤ b.default_order)
  else decide (catWeight categories a.category_id < catWeight categories b.category_id)

theorem canonicalOrderLE_iff (categories : List Category) (a b : CanonicalChannel) :
    canonicalOrderLE categories a b = true ↔
      (catWeight categories a.category_id < catWeight categories b.category_id ∨
        (catWeight categories a.category_id = catWeight categories b.category_id ∧
          a.default_order ≤ b.default_order)) := by
  unfold canonicalOrderLE
  split
  · simp only [decide_eq_true_eq]
    omega
  · simp only [decide_eq_true_eq]
    omega

theorem canonicalOrderLE_trans (categories : List Category) (a b c : CanonicalChannel) :
    canonicalOrderLE categories a b → canonicalOrderLE categories b c →
      canonicalOrderLE categories a c := by
  intro h1 h2
  rw [canonicalOrderLE_iff] at h1 h2 ⊢
  omega

theorem canonicalOrderLE_total (categories : List Category) (a b : CanonicalChannel) :
    canonicalOrderLE categories a b || canonicalOrderLE categories b a := by
  rw [Bool.or_eq_true, canonicalOrderLE_iff, canonicalOrderLE_iff]
  omega

/-- The `canonicalOrder` comparator as a decidable ordering relation. -/
def chanLE (categories : List Category) (a b : CanonicalChannel) : Prop :=
  canonicalOrderLE categories a b = true

instance (categories : List Category) : DecidableRel (chanLE categories) :=
  fun a b => inferInstanceAs (Decidable (canonicalOrderLE categories a b = true))

instance (categories : List Category) : IsTrans CanonicalChannel (chanLE categories) :=
  ⟨fun a b c => canonicalOrderLE_trans categories a b c⟩

instance (categories : List Category) : IsTotal CanonicalChannel (chanLE categories) :=
  ⟨fun a b => by
    have h := canonicalOrderLE_total categories a b
    rcases Bool.or_eq_true _ _ ▸ h with h1 | h1
    · exact Or.inl h1
    · exact Or.inr h1⟩

/-- `orderedChannels` / `orderedCanonicalChannels`: the catalog sorted with
the `canonicalOrder` comparator; `Array.prototype.sort` is a stable sort,
modelled by the stable `List.insertionSort`. -/
def orderedChannels (channels : List CanonicalChannel) (categories : List Category) :
    List CanonicalChannel :=
  channels.insertionSort (chanLE categories)

/-- The `sortedCategories` comparator (builder page lines 272-279) as a
boolean ordering relation: true exactly when the comparator returns `≤ 0`. -/
def categoryLE (a b : Category) : Bool :=
  if categoryOrderValue a.name = categoryOrderValue b.name
  then decide (a.sort_order ≤ b.sort_order)
  else decide (categoryOrderValue a.name < categoryOrderValue b.name)

/-- The `sortedCategories` comparator as a decidable ordering relation. -/
def catLE (a b : Category) : Prop := categoryLE a b = true

instance : DecidableRel catLE :=
  fun a b => inferInstanceAs (Decidable (categoryLE a b = true))

/-- The `sortedCategories` sort (builder page lines 272-279), again a stable
sort wrt the comparator. -/
def sortedCategories (categories : List Category) : List Category :=
  categories.insertionSort catLE

/-- C4: the catalog ordering is a pure function (identical on repeated calls),
a permutation of its input, sorted by category weight and then by
`default_order`, and stable: channels tied on both keys keep their input
relative order. -/
theorem c4_orderedChannels_deterministic_sorted_stable
    (channels : List CanonicalChannel) (categories : List Category) :
    (orderedChannels channels categories = orderedChannels channels categories) ∧
    List.Perm (orderedChannels channels categories) channels ∧
    (orderedChannels channels categories).Pairwise (fun a b =>
      catWeight categories a.category_id < catWeight categories b.category_id ∨
        (catWeight categories a.category_id = catWeight categories b.category_id ∧
          a.default_order ≤ b.default_order)) ∧
    (∀ a b : CanonicalChannel,
      catWeight categories a.category_id = catWeight categories b.category_id →
      a.default_order = b.default_order →
      [a, b].Sublist channels →
      [a, b].Sublist (orderedChannels channels categories)) := by
  refine ⟨rfl, List.perm_insertionSort (chanLE categories) channels, ?_, ?_⟩
  · have h := List.sorted_insertionSort (chanLE categories) channels
    exact h.imp (fun hab => (canonicalOrderLE_iff categories _ _).mp hab)
  · intro a b hw hd hsub
    apply List.pair_sublist_insertionSort _ hsub
    show canonicalOrderLE categories a b = true
    rw [canonicalOrderLE_iff]
    omega

/-- Witness for C4: a two-channel catalog in reverse weight order. -/
theorem c4_orderedChannels_witness :
    [(⟨100, "Kick In", 1, some 0⟩ : CanonicalChannel), ⟨101, "Kick Out", 1, some 0⟩].Sublist
      (orderedChannels
        [⟨100, "Kick In", 1, some 0⟩, ⟨101, "Kick Out", 1, some 0⟩]
        [⟨0, "Drums", 1⟩]) :=
  (c4_orderedChannels_deterministic_sorted_stable
      [⟨100, "Kick In", 1, some 0⟩, ⟨101, "Kick Out", 1, some 0⟩]
      [⟨0, "Drums", 1⟩]).2.2.2 _ _ (by decide) (by decide)
    (List.Sublist.refl _)

theorem find?_of_first {α : Type} (l : List α) (p : α → Bool) (i : Nat) (hi : i < l.length)
    (hp : p (l.get ⟨i, hi⟩) = true)
    (hb : ∀ j : Nat, ∀ hj : j < i, p (l.get ⟨j, Nat.lt_trans hj hi⟩) = false) :
    l.find? p = some (l.get ⟨i, hi⟩) := by
  induction l generalizing i with
  | nil => exact absurd hi (by simp)
  | cons a l ih =>
      cases i with
      | zero => exact List.find?_cons_of_pos l hp
      | succ n =>
          have ha : p a = false := hb 0 (Nat.succ_pos n)
          rw [List.find?_cons_of_neg l (by simp [ha])]
          exact ih n (Nat.lt_of_succ_lt_succ hi) hp
            (fun j hj => hb (j + 1) (Nat.succ_lt_succ hj))

theorem categoryOrderValue_le (name : String) : categoryOrderValue name ≤ 9999 := by
  unfold categoryOrderValue
  split
  · rename_i g hg
    have hmem : g ∈ orderMap := List.mem_of_find?_eq_some hg
    have : ∀ g ∈ orderMap, g.2 < 9999 := by decide
    exact Nat.le_of_lt (this g hmem)
  · exact Nat.le_refl _

/-- C7: `categoryOrderValue` returns the weight of the first matching keyword
group of the fixed table, `9999` (strictly above every table weight) when no
group matches; the hand-rolled substring test agrees with genuine contiguous
containment; and `sortedCategories` sorts by weight then ascending
`sort_order`, thus placing every unrecognized category after every
recognized one. -/
theorem c7_categoryOrderValue_spec :
    (∀ name : String, ∀ i : Nat, ∀ hi : i < orderMap.length,
      (orderMap.get ⟨i, hi⟩).1.any (fun t => listHasSub (lowerStr name) t.toList) = true →
      (∀ j : Nat, ∀ hj : j < i,
        (orderMap.get ⟨j, Nat.lt_trans hj hi⟩).1.any
          (fun t => listHasSub (lowerStr name) t.toList) = false) →
      categoryOrderValue name = (orderMap.get ⟨i, hi⟩).2) ∧
    (∀ name : String,
      (∀ g ∈ orderMap, g.1.any (fun t => listHasSub (lowerStr name) t.toList) = false) →
      categoryOrderValue name = 9999) ∧
    (∀ g ∈ orderMap, g.2 < 9999) ∧
    (∀ s t : String, strHasSub s t = true ↔
      ∃ u v : List Char, u ++ t.toList ++ v = s.toList) ∧
    (∀ categories : List Category,
      List.Perm (sortedCategories categories) categories ∧
      (sortedCategories categories).Pairwise (fun a b =>
        categoryOrderValue a.name < categoryOrderValue b.name ∨
          (categoryOrderValue a.name = categoryOrderValue b.name ∧
            a.sort_order ≤ b.sort_order)) ∧
      (sortedCategories categories).Pairwise (fun a b =>
        categoryOrderValue a.name = 9999 → categoryOrderValue b.name = 9999)) := by
  have hsubiff : ∀ s t : List Char, listHasSub s t = true ↔
      ∃ u v : List Char, u ++ t ++ v = s := by
    have hstarts : ∀ t s : List Char, strStarts t s = true ↔ ∃ v, t ++ v = s := by
      intro t
      induction t with
      | nil => intro s; simp [strStarts]
      | cons c t ih =>
          intro s
          cases s with
          | nil => simp [strStarts]
          | cons d s =>
              rw [strStarts]
              simp only [Bool.and_eq_true, beq_iff_eq, ih s]
              constructor
              · rintro ⟨rfl, v, rfl⟩
                exact ⟨v, rfl⟩
              · rintro ⟨v, hv⟩
                rw [List.cons_append] at hv
                exact ⟨(List.cons.injEq _ _ _ _ ▸ hv).1,
                  v, (List.cons.injEq _ _ _ _ ▸ hv).2⟩
    intro s t
    induction s with
    | nil =>
        rw [listHasSub, hstarts]
        constructor
        · rintro ⟨v, hv⟩
          exact ⟨[], v, by simpa using hv⟩
        · rintro ⟨u, v, huv⟩
          rcases List.append_eq_nil.mp huv with ⟨h1, h2⟩
          exact ⟨v, by simp_all⟩
    | cons d s ih =>
        rw [listHasSub, Bool.or_eq_true, hstarts, ih]
        constructor
        · rintro (⟨v, hv⟩ | ⟨u, v, huv⟩)
          · exact ⟨[], v, by simpa using hv⟩
          · exact ⟨d :: u, v, by simp [huv]⟩
        · rintro ⟨u, v, huv⟩
          cases u with
          | nil => exact Or.inl ⟨v, by simpa using huv⟩
          | cons e u =>
              rw [List.cons_append, List.cons_append] at huv
              exact Or.inr ⟨u, v, (List.cons.injEq _ _ _ _ ▸ huv).2⟩
  have hcatle : ∀ a b : Category, categoryLE a b = true ↔
      (categoryOrderValue a.name < categoryOrderValue b.name ∨
        (categoryOrderValue a.name = categoryOrderValue b.name ∧
          a.sort_order ≤ b.sort_order)) := by
    intro a b
    unfold categoryLE
    split
    · simp only [decide_eq_true_eq]; omega
    · simp only [decide_eq_true_eq]; omega
  refine ⟨?_, ?_, by decide, ?_, ?_⟩
  · intro name i hi hp hb
    unfold categoryOrderValue
    rw [find?_of_first orderMap _ i hi hp hb]
  · intro name hnone
    unfold categoryOrderValue
    rw [List.find?_eq_none.mpr (fun g hg => by rw [hnone g hg]; simp)]
  · intro s t
    exact hsubiff s.toList t.toList
  · intro categories
    have htrans : IsTrans Category catLE := by
      constructor
      intro a b c h1 h2
      have h1' : categoryLE a b = true := h1
      have h2' : categoryLE b c = true := h2
      show categoryLE a c = true
      rw [hcatle] at h1' h2' ⊢
      omega
    have htotal : IsTotal Category catLE := by
      constructor
      intro a b
      show categoryLE a b = true ∨ categoryLE b a = true
      rw [hcatle, hcatle]
      omega
    refine ⟨List.perm_insertionSort catLE categories, ?_, ?_⟩
    · have h := @List.sorted_insertionSort Category catLE _ htotal htrans categories
      exact h.imp (fun hab => (hcatle _ _).mp hab)
    · have h := @List.sorted_insertionSort Category catLE _ htotal htrans categories
      refine h.imp (fun hab => ?_)
      rename_i a b
      have hab' := (hcatle _ _).mp hab
      intro h9
      have := categoryOrderValue_le b.name
      omega

/-- Witness for C7: the group "vox, vocal, voice" is the first match for
"Lead Vocals", "Zither" matches nothing, and a concrete substring check. -/
theorem c7_categoryOrderValue_witness :
    categoryOrderValue ("Lead Vocals") = 6 ∧
    categoryOrderValue ("Zither") = 9999 ∧
    strHasSub ("drumstel") ("drum") = true := by
  refine ⟨?_, ?_, ?_⟩
  · have h := c7_categoryOrderValue_spec.1 ("Lead Vocals") 6 (by decide)
      (by decide) (by decide)
    simpa using h
  · exact c7_categoryOrderValue_spec.2.1 ("Zither") (by decide)
  · exact (c7_categoryOrderValue_spec.2.2.2.1 ("drumstel") ("drum")).mpr
      ⟨[], ['s', 't', 'e', 'l'], by decide⟩

/-- JS `Map.set`: the newest binding shadows older ones (`List.lookup` finds
the most recently set entry first). -/
def mapSet (m : List (Nat × PatchChannel)) (k : Nat) (v : PatchChannel) :
    List (Nat × PatchChannel) := (k, v) :: m

/-- The `canonicalToPatch` map of `ensurePatchChannels` (builder page lines
300-304): canonical channel id to its patch-channel row. -/
def buildCanonicalToPatch (patch : List PatchChannel) : List (Nat × PatchChannel) :=
  patch.foldl (fun m p =>
    match p.canonical_channel_id with
    | some cid => mapSet m cid p
    | none => m) []

/-- `patchChannels.reduce((acc, cur) => Math.max(acc, cur.channel_number), 0)`. -/
def maxChannelNumber (patch : List PatchChannel) : Nat :=
  patch.foldl (fun acc p => max acc p.channel_number) 0

/-- The `missing` list of `ensurePatchChannels`: selected canonical ids with
no patch channel in the event yet. -/
def missingCanonicalIds (patch : List PatchChannel) (canonicalIds : List Nat) : List Nat :=
  canonicalIds.filter (fun cid => ((buildCanonicalToPatch patch).lookup cid).isNone)

/-- The `newRows` inserted by `ensurePatchChannels`; the store generates the
ids of the inserted rows, modelled as `nextId`, `nextId + 1`, .... -/
def newPatchRows (patch : List PatchChannel) (canonicalIds : List Nat) (nextId : Nat) :
    List PatchChannel :=
  (missingCanonicalIds patch canonicalIds).enum.map
    (fun p => { id := nextId + p.1,
                channel_number := maxChannelNumber patch + p.1 + 1,
                canonical_channel_id := some p.2 })

structure EnsureResult where
  canonicalToPatch : List (Nat × PatchChannel)
  patchChannels : List PatchChannel

/-- `ensurePatchChannels` (builder page lines 300-349): create a patch channel
for every selected canonical id not present yet, numbering the new rows
`maxNumber + 1, maxNumber + 2, ...` in selection order, appending them after
the existing rows and extending the `canonicalToPatch` map. -/
def ensurePatchChannels (patch : List PatchChannel) (canonicalIds : List Nat) (nextId : Nat) :
    EnsureResult :=
  if (missingCanonicalIds patch canonicalIds).isEmpty then
    ⟨buildCanonicalToPatch patch, patch⟩
  else
    ⟨(newPatchRows patch canonicalIds nextId).foldl (fun m pc =>
        match pc.canonical_channel_id with
        | some cid => mapSet m cid pc
        | none => m) (buildCanonicalToPatch patch),
      patch ++ newPatchRows patch canonicalIds nextId⟩

theorem lookup_foldl_mapSet (rows : List PatchChannel) (m : List (Nat × PatchChannel)) (cid : Nat) :
    ((rows.foldl (fun m pc =>
        match pc.canonical_channel_id with
        | some c => mapSet m c pc
        | none => m) m).lookup cid = none) ↔
      (m.lookup cid = none ∧ ∀ p ∈ rows, p.canonical_channel_id ≠ some cid) := by
  induction rows generalizing m with
  | nil => simp
  | cons p rows ih =>
      rw [List.foldl_cons]
      cases hc : p.canonical_channel_id with
      | none =>
          simp only [hc, ih, List.forall_mem_cons]
          simp [hc]
      | some c =>
          simp only [hc]
          rw [ih]
          simp only [mapSet, List.lookup_eq_none_iff, List.forall_mem_cons,
            bne_iff_ne, ne_eq, Option.some.injEq, hc]
          constructor
          · rintro ⟨⟨h1, h2⟩, h3⟩
            exact ⟨h2, fun he => h1 he.symm, h3⟩
          · rintro ⟨h2, h1, h3⟩
            exact ⟨⟨fun he => h1 he.symm, h2⟩, h3⟩

theorem lookup_buildCanonicalToPatch_eq_none (patch : List PatchChannel) (cid : Nat) :
    ((buildCanonicalToPatch patch).lookup cid = none) ↔
      ∀ p ∈ patch, p.canonical_channel_id ≠ some cid := by
  have h := lookup_foldl_mapSet patch [] cid
  simpa [buildCanonicalToPatch] using h

theorem missingCanonicalIds_eq (patch : List PatchChannel) (canonicalIds : List Nat) :
    missingCanonicalIds patch canonicalIds
      = canonicalIds.filter
          (fun cid => decide (∀ p ∈ patch, p.canonical_channel_id ≠ some cid)) := by
  unfold missingCanonicalIds
  apply List.filter_congr
  intro cid _
  by_cases h : ∀ p ∈ patch, p.canonical_channel_id ≠ some cid
  · rw [(lookup_buildCanonicalToPatch_eq_none patch cid).mpr h]
    simpa using h
  · have hne : (buildCanonicalToPatch patch).lookup cid ≠ none :=
      fun hn => h ((lookup_buildCanonicalToPatch_eq_none patch cid).mp hn)
    rcases ho : (buildCanonicalToPatch patch).lookup cid with _ | v
    · exact absurd ho hne
    · simp [h]

theorem newPatchRows_map_ccid (patch : List PatchChannel) (canonicalIds : List Nat)
    (nextId : Nat) :
    (newPatchRows patch canonicalIds nextId).map PatchChannel.canonical_channel_id
      = (missingCanonicalIds patch canonicalIds).map some := by
  unfold newPatchRows
  apply List.ext_getElem
  · simp [List.enum_eq_enumFrom]
  · intro i h1 h2
    simp [List.enum_eq_enumFrom, List.getElem_enumFrom]

theorem newPatchRows_map_number (patch : List PatchChannel) (canonicalIds : List Nat)
    (nextId : Nat) :
    (newPatchRows patch canonicalIds nextId).map PatchChannel.channel_number
      = List.range' (maxChannelNumber patch + 1)
          (missingCanonicalIds patch canonicalIds).length := by
  unfold newPatchRows
  apply List.ext_getElem
  · simp [List.enum_eq_enumFrom]
  · intro i h1 h2
    simp [List.enum_eq_enumFrom, List.getElem_enumFrom]
    omega

theorem ensurePatchChannels_patchChannels_eq (patch : List PatchChannel)
    (canonicalIds : List Nat) (nextId : Nat) :
    (ensurePatchChannels patch canonicalIds nextId).patchChannels
      = patch ++ newPatchRows patch canonicalIds nextId := by
  unfold ensurePatchChannels
  by_cases h : (missingCanonicalIds patch canonicalIds).isEmpty
  · rw [if_pos h]
    have h' : missingCanonicalIds patch canonicalIds = [] := List.isEmpty_iff.mp h
    show patch = patch ++ newPatchRows patch canonicalIds nextId
    rw [show newPatchRows patch canonicalIds nextId = [] from by
      unfold newPatchRows; rw [h']; rfl]
    rw [List.append_nil]
  · rw [if_neg h]

theorem ensurePatchChannels_canonicalToPatch_eq (patch : List PatchChannel)
    (canonicalIds : List Nat) (nextId : Nat) :
    (ensurePatchChannels patch canonicalIds nextId).canonicalToPatch
      = (newPatchRows patch canonicalIds nextId).foldl (fun m pc =>
          match pc.canonical_channel_id with
          | some cid => mapSet m cid pc
          | none => m) (buildCanonicalToPatch patch) := by
  unfold ensurePatchChannels
  by_cases h : (missingCanonicalIds patch canonicalIds).isEmpty
  · rw [if_pos h]
    have h' : missingCanonicalIds patch canonicalIds = [] := List.isEmpty_iff.mp h
    show buildCanonicalToPatch patch = _
    rw [show newPatchRows patch canonicalIds nextId = [] from by
      unfold newPatchRows; rw [h']; rfl]
    rfl
  · rw [if_neg h]

/-- C6: ensuring shared catalog coverage creates a new patch channel exactly
for each selected canonical id that has none yet, numbers the new rows
consecutively from `maxChannelNumber + 1`, and appends them after the
pre-existing rows, which it leaves entirely unchanged. -/
theorem c6_ensurePatchChannels_frame (patch : List PatchChannel) (canonicalIds : List Nat)
    (nextId : Nat) :
    ((ensurePatchChannels patch canonicalIds nextId).patchChannels.take patch.length
        = patch) ∧
    (((ensurePatchChannels patch canonicalIds nextId).patchChannels.drop patch.length).map
          PatchChannel.canonical_channel_id
        = (canonicalIds.filter
            (fun cid => decide (∀ p ∈ patch, p.canonical_channel_id ≠ some cid))).map some) ∧
    (((ensurePatchChannels patch canonicalIds nextId).patchChannels.drop patch.length).map
          PatchChannel.channel_number
        = List.range' (maxChannelNumber patch + 1)
            (canonicalIds.filter
              (fun cid => decide (∀ p ∈ patch, p.canonical_channel_id ≠ some cid))).length) ∧
    (∀ p ∈ patch, p ∈ (ensurePatchChannels patch canonicalIds nextId).patchChannels) := by
  rw [← missingCanonicalIds_eq, ensurePatchChannels_patchChannels_eq]
  refine ⟨List.take_left patch _, ?_, ?_, fun p hp => List.mem_append_left _ hp⟩
  · rw [List.drop_left]
    exact newPatchRows_map_ccid patch canonicalIds nextId
  · rw [List.drop_left]
    exact newPatchRows_map_number patch canonicalIds nextId

/-- Witness for C6: one existing row, one genuinely new selected channel. -/
theorem c6_ensurePatchChannels_frame_witness :
    (⟨10, 1, some 100⟩ : PatchChannel) ∈
      (ensurePatchChannels [⟨10, 1, some 100⟩] [100, 101] 50).patchChannels :=
  (c6_ensurePatchChannels_frame [⟨10, 1, some 100⟩] [100, 101] 50).2.2.2
    ⟨10, 1, some 100⟩ (by decide)

/-- The `usageRows` built by `handleAddBand` (builder page lines 424-468): one
row per selected canonical id that resolved to a patch channel, with
`is_used = true` and the canonical channel name as label (`null` when the
channel is unknown). -/
def buildUsageRows (canonicalChannels : List CanonicalChannel)
    (canonicalToPatch : List (Nat × PatchChannel)) (bandId : Nat)
    (canonicalIds : List Nat) : List BandChannelUsage :=
  canonicalIds.filterMap (fun cid =>
    match canonicalToPatch.lookup cid with
    | none => none
    | some patch => some
        { band_id := bandId, patch_channel_id := patch.id, is_used := true,
          label := (canonicalChannels.find? (fun c => c.id == cid)).map
            CanonicalChannel.name })

/-- The techlist page `selectedChannelsSorted` (part_000 lines 161-163):
the selected channel ids resolved through the catalog ordering. -/
def selectedInCatalogOrder (channels : List CanonicalChannel) (categories : List Category)
    (sel : List Nat) : List CanonicalChannel :=
  (orderedChannels channels categories).filter (fun ch => decide (ch.id ∈ sel))

def sampleCategories : List Category := [⟨0, "Drums", 1⟩, ⟨1, "Vocals", 2⟩]

def sampleChannels : List CanonicalChannel :=
  [⟨100, "Kick In", 1, some 0⟩, ⟨101, "Lead Vox", 1, some 1⟩]

/-- Counterexample to C5 as stated: with the selection set iterated as
`[101, 100]` (Lead Vox toggled before Kick In) on an event with no patch
channels, the builder numbers Lead Vox 1 and Kick In 2 — the *iteration
order of the selection set*, not the catalog order of the selected channels,
which puts Kick In (Drums) before Lead Vox (Vocals). -/
theorem c5_counterexample :
    ((selectedInCatalogOrder sampleChannels sampleCategories [101, 100]).map
        CanonicalChannel.id = [100, 101]) ∧
    ((ensurePatchChannels [] [101, 100] 500).patchChannels.map
        (fun p => (p.channel_number, p.canonical_channel_id))
      = [(1, some 101), (2, some 100)]) ∧
    ¬ ((ensurePatchChannels [] [101, 100] 500).patchChannels.map
          PatchChannel.canonical_channel_id
        = (selectedInCatalogOrder sampleChannels sampleCategories [101, 100]).map
            (fun c => some c.id)) := by
  decide

theorem length_filterMap_of_isSome {α β : Type} (l : List α) (f : α → Option β)
    (h : ∀ x ∈ l, (f x).isSome) : (l.filterMap f).length = l.length := by
  induction l with
  | nil => rfl
  | cons a l ih =>
      rcases hf : f a with _ | b
      · exact absurd (hf ▸ h a (List.mem_cons_self a l)) (by simp)
      · rw [List.filterMap_cons, hf]
        simp only [List.length_cons]
        rw [ih (fun x hx => h x (List.mem_cons_of_mem a hx))]

/-- C5 (amended): saving a band with selection `canonicalIds` on an event with
no existing patch channels creates one patch channel per selected id,
numbered `1..k` in the iteration order of the selection set, and one usage
row per selected id with `is_used = true` for the band. -/
theorem c5_newband_empty_event (canonicalChannels : List CanonicalChannel)
    (canonicalIds : List Nat) (bandId nextId : Nat) :
    ((ensurePatchChannels [] canonicalIds nextId).patchChannels.map
        PatchChannel.canonical_channel_id = canonicalIds.map some) ∧
    ((ensurePatchChannels [] canonicalIds nextId).patchChannels.map
        PatchChannel.channel_number = List.range' 1 canonicalIds.length) ∧
    ((buildUsageRows canonicalChannels
        (ensurePatchChannels [] canonicalIds nextId).canonicalToPatch bandId
        canonicalIds).length = canonicalIds.length) ∧
    (∀ row ∈ buildUsageRows canonicalChannels
        (ensurePatchChannels [] canonicalIds nextId).canonicalToPatch bandId canonicalIds,
      row.is_used = true ∧ row.band_id = bandId) := by
  have hmiss : missingCanonicalIds [] canonicalIds = canonicalIds := by
    unfold missingCanonicalIds buildCanonicalToPatch
    simp
  have hlook : ∀ cid ∈ canonicalIds,
      ((ensurePatchChannels [] canonicalIds nextId).canonicalToPatch.lookup cid) ≠ none := by
    intro cid hcid hnone
    rw [ensurePatchChannels_canonicalToPatch_eq] at hnone
    have hchar := (lookup_foldl_mapSet (newPatchRows [] canonicalIds nextId)
      (buildCanonicalToPatch []) cid).mp hnone
    have hmem : some cid ∈ (newPatchRows [] canonicalIds nextId).map
        PatchChannel.canonical_channel_id := by
      rw [newPatchRows_map_ccid, hmiss]
      exact List.mem_map_of_mem some hcid
    rcases List.mem_map.mp hmem with ⟨p, hp, hpe⟩
    exact hchar.2 p hp hpe
  refine ⟨?_, ?_, ?_, ?_⟩
  · rw [ensurePatchChannels_patchChannels_eq, List.nil_append,
      newPatchRows_map_ccid, hmiss]
  · rw [ensurePatchChannels_patchChannels_eq, List.nil_append,
      newPatchRows_map_number, hmiss]
    rfl
  · apply length_filterMap_of_isSome
    intro cid hcid
    rcases hl : ((ensurePatchChannels [] canonicalIds nextId).canonicalToPatch.lookup cid)
        with _ | p
    · exact absurd hl (hlook cid hcid)
    · rfl
  · intro row hrow
    rcases List.mem_filterMap.mp hrow with ⟨cid, _, heq⟩
    rcases hl : ((ensurePatchChannels [] canonicalIds nextId).canonicalToPatch.lookup cid)
        with _ | p
    · rw [hl] at heq
      cases heq
    · rw [hl] at heq
      cases heq
      exact ⟨rfl, rfl⟩

/-- Witness for C5 (amended) at a concrete two-channel selection. -/
theorem c5_newband_empty_event_witness :
    (⟨7, 500, true, some ("Lead Vox")⟩ : BandChannelUsage).is_used = true ∧
    (⟨7, 500, true, some ("Lead Vox")⟩ : BandChannelUsage).band_id = 7 :=
  (c5_newband_empty_event sampleChannels [101, 100] 7 500).2.2.2 _ (by decide)

/-- One write issued against the store (inserts, updates and deletes of the
save flows; reads are not mutations and are not tracked). -/
inductive StoreWrite
  | insertTechlistRow
  | updateTechlistRow
  | deleteTechlistChannelRows
  | insertTechlistChannelRows (n : Nat)
  | insertPatchChannelRows (n : Nat)
  | insertBandRow
  | updateBandRow
  | deleteBandUsageRows
  | insertBandUsageRows (n : Nat)
deriving DecidableEq

/-- `s.trim() === ""` for a JavaScript string: every character is
whitespace. -/
def isBlank (s : String) : Bool := s.toList.all Char.isWhitespace

/-- `handleSaveTechlist` (techlist page lines 211-298): the validation gate
and the sequence of store writes of the success path.  Inputs are the band
name, the resolved `selectedChannelsSorted`, and the techlist being edited
(if any). -/
def handleSaveTechlist (bandName : String) (selectedChannelsSorted : List CanonicalChannel)
    (selectedTechlistId : Option Nat) : Option String × List StoreWrite :=
  if isBlank bandName then (some ("Geef een groepsnaam in."), [])
  else if selectedChannelsSorted.length = 0 then
    (some ("Selecteer minstens één kanaal."), [])
  else
    ((none : Option String),
      [(match selectedTechlistId with
        | none => StoreWrite.insertTechlistRow
        | some _ => StoreWrite.updateTechlistRow),
       StoreWrite.deleteTechlistChannelRows,
       StoreWrite.insertTechlistChannelRows selectedChannelsSorted.length])

/-- `handleAddBand` (builder page lines 351-510): the validation gate (only
the band name is checked; the error message is suppressed for auto-saves)
and the sequence of store writes of the success path up to the usage
insert.  `missingCount` is the number of patch channels
`ensurePatchChannels` has to create. -/
def handleAddBand (isAuto : Bool) (bandName : String) (canonicalIds : List Nat)
    (editingBandId : Option Nat) (missingCount : Nat) : Option String × List StoreWrite :=
  if isBlank bandName then
    ((if isAuto then none else some ("Geef een groepsnaam in.")), [])
  else
    ((none : Option String),
      (if missingCount = 0 then [] else [StoreWrite.insertPatchChannelRows missingCount]) ++
      [(match editingBandId with
        | none => StoreWrite.insertBandRow
        | some _ => StoreWrite.updateBandRow)] ++
      (match editingBandId with
        | none => []
        | some _ => [StoreWrite.deleteBandUsageRows]) ++
      (if canonicalIds.length = 0 then [] else
        [StoreWrite.insertBandUsageRows canonicalIds.length]))

/-- Counterexample to C8 as stated: a manual band save with a non-blank name
and an empty channel selection passes validation and issues a store write
(the band insert) with no error message, contradicting the claim that "no
channels selected" blocks every save before any I/O. -/
theorem c8_counterexample :
    handleAddBand false ("The Quiet Ones") [] none 0
      = (none, [StoreWrite.insertBandRow]) := by
  decide

/-- C8 (amended): the techlist save validates both the blank name and the
empty selection before any store write, surfacing an inline message; the
band save validates only the blank name (suppressing the message on
auto-saves); and a band save with a non-blank name proceeds to issue store
writes even when no channels are selected. -/
theorem c8_validation (bandName : String) (selectedChannelsSorted : List CanonicalChannel)
    (selectedTechlistId : Option Nat) (isAuto : Bool) (canonicalIds : List Nat)
    (editingBandId : Option Nat) (missingCount : Nat) :
    ((isBlank bandName = true ∨ selectedChannelsSorted.length = 0) →
      ((handleSaveTechlist bandName selectedChannelsSorted selectedTechlistId).2 = [] ∧
        (handleSaveTechlist bandName selectedChannelsSorted selectedTechlistId).1.isSome)) ∧
    (isBlank bandName = true →
      ((handleAddBand isAuto bandName canonicalIds editingBandId missingCount).2 = [] ∧
        (isAuto = false →
          (handleAddBand isAuto bandName canonicalIds editingBandId missingCount).1.isSome))) ∧
    (isBlank bandName = false →
      (handleAddBand isAuto bandName canonicalIds editingBandId missingCount).2 ≠ []) := by
  refine ⟨?_, ?_, ?_⟩
  · intro h
    unfold handleSaveTechlist
    rcases h with h | h
    · rw [if_pos h]
      exact ⟨rfl, rfl⟩
    · by_cases hb : isBlank bandName
      · rw [if_pos hb]
        exact ⟨rfl, rfl⟩
      · rw [if_neg hb, if_pos h]
        exact ⟨rfl, rfl⟩
  · intro h
    unfold handleAddBand
    rw [if_pos h]
    refine ⟨rfl, ?_⟩
    intro ha
    rw [ha]
    rfl
  · intro h
    unfold handleAddBand
    rw [if_neg (by rw [h]; exact Bool.false_ne_true)]
    intro hcontra
    have hlen := congrArg List.length hcontra
    simp only [List.length_append, List.length_nil] at hlen
    split at hlen <;> split at hlen <;> split at hlen <;> simp at hlen

/-- Witness for C8 (amended) at concrete inputs: a blank techlist save, a
blank auto band save, and a named band save with an empty selection. -/
theorem c8_validation_witness :
    ((handleSaveTechlist ("") [] none).2 = [] ∧
      (handleSaveTechlist ("") [] none).1.isSome) ∧
    ((handleAddBand true ("") [] none 0).2 = []) ∧
    ((handleAddBand false ("X") [] none 0).2 ≠ []) := by
  refine ⟨(c8_validation ("") [] none false [] none 0).1 (Or.inl (by decide)), ?_, ?_⟩
  · exact ((c8_validation ("") [] none true [] none 0).2.1 (by decide)).1
  · exact (c8_validation ("X") [] none false [] none 0).2.2 (by decide)

/-- A row of the `bands` table. -/
structure Band where
  id : Nat
  name : String
  sort_order : Nat
deriving DecidableEq

/-- The band comparator `(a, b) => a.sort_order - b.sort_order` as an
ordering relation. -/
def bandLE (a b : Band) : Prop := a.sort_order ≤ b.sort_order

instance : DecidableRel bandLE :=
  fun a b => inferInstanceAs (Decidable (a.sort_order ≤ b.sort_order))

instance : IsTrans Band bandLE := ⟨fun _ _ _ h1 h2 => Nat.le_trans h1 h2⟩

instance : IsTotal Band bandLE := ⟨fun a b => Nat.le_total a.sort_order b.sort_order⟩

/-- `[...bandData].sort((a, b) => a.sort_order - b.sort_order).slice(-1)[0]`
(builder page line 215): the last band after the stable sort by
`sort_order`. -/
def lastBandAfterSort (bands : List Band) : Option Band :=
  (bands.insertionSort bandLE).getLast?

/-- The `patchToCanonical` map of `loadEventData` (builder page lines
217-220). -/
def patchToCanonical (patch : List PatchChannel) : List (Nat × Nat) :=
  patch.foldl (fun m p =>
    match p.canonical_channel_id with
    | some cid => (p.id, cid) :: m
    | none => m) []

/-- The used canonical-channel ids of one band, read off the usage rows as in
`loadEventData` (builder page lines 221-227) and `loadBandIntoForm`. -/
def bandSelection (bandId : Nat) (patch : List PatchChannel)
    (usage : List BandChannelUsage) : List Nat :=
  usage.filterMap (fun row =>
    if row.band_id = bandId ∧ row.is_used = true then
      (patchToCanonical patch).lookup row.patch_channel_id
    else none)

/-- The baseline selection established by `loadEventData` (builder page lines
214-229): the selection of the last band after sorting by `sort_order`. -/
def baselineSelection (bands : List Band) (patch : List PatchChannel)
    (usage : List BandChannelUsage) : List Nat :=
  match lastBandAfterSort bands with
  | none => []
  | some lastBand => bandSelection lastBand.id patch usage

def cxBands : List Band := [⟨1, "Opener", 1⟩, ⟨2, "Headliner", 2⟩]

def cxPatch : List PatchChannel := [⟨10, 1, some 100⟩, ⟨11, 2, some 101⟩]

def cxUsage : List BandChannelUsage := [⟨1, 10, true, none⟩, ⟨2, 11, true, none⟩]

/-- Counterexample to C9 as stated: after the band "Opener" (`sort_order` 1,
using channel 100) is re-saved, `loadEventData` recomputes the baseline, but
it is the selection of "Headliner" (the band with the highest `sort_order`,
using channel 101), not the selection of the freshly saved "Opener". -/
theorem c9_counterexample :
    baselineSelection cxBands cxPatch cxUsage = [101] ∧
    bandSelection 1 cxPatch cxUsage = [100] ∧
    baselineSelection cxBands cxPatch cxUsage ≠ bandSelection 1 cxPatch cxUsage := by
  decide

theorem pairwise_le_getLast {l : List Band} (hp : l.Pairwise bandLE) :
    ∀ b ∈ l, ∀ lb : Band, l.getLast? = some lb → b.sort_order ≤ lb.sort_order := by
  induction l with
  | nil => intro b hb; cases hb
  | cons a l ih =>
      intro b hb lb hl
      rcases List.pairwise_cons.mp hp with ⟨ha, hp2⟩
      cases l with
      | nil =>
          have hb' : b = a := by simpa using hb
          have hl' : lb = a := by simpa [List.getLast?] using hl.symm
          rw [hb', hl']
      | cons c l2 =>
          have hl2 : (c :: l2).getLast? = some lb := by
            rwa [List.getLast?_cons_cons] at hl
          rcases List.mem_cons.mp hb with rfl | hb2
          · exact ha lb (List.mem_of_getLast?_eq_some hl2)
          · exact ih hp2 b hb2 lb hl2

/-- C9 (amended): the baseline selection established after a save is the
used-channel selection of the band with the greatest `sort_order` (the last
created band), which equals the selection of the freshly saved band only when that
band happens to be the last one. -/
theorem c9_baseline_is_last_band (bands : List Band) (patch : List PatchChannel)
    (usage : List BandChannelUsage) (hne : bands ≠ []) :
    ∃ lb : Band, lastBandAfterSort bands = some lb ∧ lb ∈ bands ∧
      (∀ b ∈ bands, b.sort_order ≤ lb.sort_order) ∧
      baselineSelection bands patch usage = bandSelection lb.id patch usage := by
  have hperm := List.perm_insertionSort bandLE bands
  have hsne : bands.insertionSort bandLE ≠ [] := by
    intro h
    rw [h] at hperm
    exact hne hperm.symm.eq_nil
  rcases hl : (bands.insertionSort bandLE).getLast? with _ | lb
  · exact absurd (List.getLast?_eq_none_iff.mp hl) hsne
  · have hsorted := List.sorted_insertionSort bandLE bands
    refine ⟨lb, hl, ?_, ?_, ?_⟩
    · exact hperm.mem_iff.mp (List.mem_of_getLast?_eq_some hl)
    · intro b hb
      exact pairwise_le_getLast hsorted b (hperm.mem_iff.mpr hb) lb hl
    · unfold baselineSelection lastBandAfterSort
      rw [hl]

/-- Witness for C9 (amended) on the two-band example. -/
theorem c9_baseline_is_last_band_witness :
    ∃ lb : Band, lastBandAfterSort cxBands = some lb ∧ lb ∈ cxBands ∧
      (∀ b ∈ cxBands, b.sort_order ≤ lb.sort_order) ∧
      baselineSelection cxBands cxPatch cxUsage = bandSelection lb.id cxPatch cxUsage :=
  c9_baseline_is_last_band cxBands cxPatch cxUsage (by decide)

/-- The usage replacement of a builder re-save (builder page lines 411-468):
`delete().eq("band_id", bandId)` followed by the insert of the freshly built
rows. -/
def replaceBandUsage (usage : List BandChannelUsage) (bandId : Nat)
    (rows : List BandChannelUsage) : List BandChannelUsage :=
  (usage.filter (fun u => decide (u.band_id ≠ bandId))) ++ rows

/-- The upsert payload of the matrix `toggleUsage` (part_004 lines 159-208):
toggling on keeps an existing label (`current?.label ?? defaultLabel`),
toggling off keeps `current?.label ?? null`. -/
def toggleUsagePayload (current : Option BandChannelUsage) (bandId patchChannelId : Nat)
    (defaultLabel : String) : BandChannelUsage :=
  let nextUsed := !(match current with | some c => c.is_used | none => false)
  { band_id := bandId, patch_channel_id := patchChannelId, is_used := nextUsed,
    label := if nextUsed then some ((current.bind BandChannelUsage.label).getD defaultLabel)
             else current.bind BandChannelUsage.label }

theorem mem_buildUsageRows (canonicalChannels : List CanonicalChannel)
    (canonicalToPatch : List (Nat × PatchChannel)) (bandId : Nat) (canonicalIds : List Nat) :
    ∀ row ∈ buildUsageRows canonicalChannels canonicalToPatch bandId canonicalIds,
      row.band_id = bandId ∧ row.is_used = true ∧
        ∃ cid ∈ canonicalIds,
          row.label = (canonicalChannels.find? (fun c => c.id == cid)).map
            CanonicalChannel.name := by
  intro row hrow
  rcases List.mem_filterMap.mp hrow with ⟨cid, hcid, heq⟩
  rcases hl : canonicalToPatch.lookup cid with _ | p
  · rw [hl] at heq
    cases heq
  · rw [hl] at heq
    cases heq
    exact ⟨rfl, rfl, cid, hcid, rfl⟩

/-- C10: a builder re-save deletes every usage row of the band and recreates
them with `label = canonical channel name` (or `null` for an unknown
channel), independent of any custom label previously stored; rows of other
bands are untouched; and the matrix toggle path, by contrast, preserves an
existing label when toggling a channel on. -/
theorem c10_resave_resets_labels (usage : List BandChannelUsage)
    (canonicalChannels : List CanonicalChannel)
    (canonicalToPatch : List (Nat × PatchChannel)) (bandId : Nat)
    (canonicalIds : List Nat) :
    ((replaceBandUsage usage bandId
        (buildUsageRows canonicalChannels canonicalToPatch bandId canonicalIds)).filter
          (fun u => decide (u.band_id = bandId))
      = buildUsageRows canonicalChannels canonicalToPatch bandId canonicalIds) ∧
    ((replaceBandUsage usage bandId
        (buildUsageRows canonicalChannels canonicalToPatch bandId canonicalIds)).filter
          (fun u => decide (u.band_id ≠ bandId))
      = usage.filter (fun u => decide (u.band_id ≠ bandId))) ∧
    (∀ row ∈ buildUsageRows canonicalChannels canonicalToPatch bandId canonicalIds,
      row.is_used = true ∧
        ∃ cid ∈ canonicalIds,
          row.label = (canonicalChannels.find? (fun c => c.id == cid)).map
            CanonicalChannel.name) ∧
    (∀ (c : BandChannelUsage) (bid pid : Nat) (dl l : String),
      c.is_used = false → c.label = some l →
      (toggleUsagePayload (some c) bid pid dl).label = some l) := by
  have hband := mem_buildUsageRows canonicalChannels canonicalToPatch bandId canonicalIds
  refine ⟨?_, ?_, ?_, ?_⟩
  · unfold replaceBandUsage
    rw [List.filter_append]
    have h1 : (usage.filter (fun u => decide (u.band_id ≠ bandId))).filter
        (fun u => decide (u.band_id = bandId)) = [] := by
      rw [List.filter_eq_nil_iff]
      intro u hu
      have := (List.mem_filter.mp hu).2
      simp only [decide_eq_true_eq] at this ⊢
      exact this
    have h2 : (buildUsageRows canonicalChannels canonicalToPatch bandId canonicalIds).filter
        (fun u => decide (u.band_id = bandId))
        = buildUsageRows canonicalChannels canonicalToPatch bandId canonicalIds := by
      rw [List.filter_eq_self]
      intro u hu
      simp only [decide_eq_true_eq]
      exact (hband u hu).1
    rw [h1, h2, List.nil_append]
  · unfold replaceBandUsage
    rw [List.filter_append]
    have h1 : (usage.filter (fun u => decide (u.band_id ≠ bandId))).filter
        (fun u => decide (u.band_id ≠ bandId))
        = usage.filter (fun u => decide (u.band_id ≠ bandId)) := by
      rw [List.filter_eq_self]
      intro u hu
      exact (List.mem_filter.mp hu).2
    have h2 : (buildUsageRows canonicalChannels canonicalToPatch bandId canonicalIds).filter
        (fun u => decide (u.band_id ≠ bandId)) = [] := by
      rw [List.filter_eq_nil_iff]
      intro u hu
      simp only [decide_eq_true_eq, not_not, ne_eq]
      exact (hband u hu).1
    rw [h1, h2, List.append_nil]
  · intro row hrow
    exact ⟨(hband row hrow).2.1, (hband row hrow).2.2⟩
  · intro c bid pid dl l hc hl
    unfold toggleUsagePayload
    simp [hc, hl]

/-- Witness for C10: a band row with a custom label toggled back on by the
matrix keeps its label, while the builder rebuild resets it. -/
theorem c10_resave_resets_labels_witness :
    (toggleUsagePayload (some ⟨7, 10, false, some ("My Custom Label")⟩) 7 10
        ("Kick In")).label = some ("My Custom Label") :=
  (c10_resave_resets_labels [] sampleChannels [] 7 []).2.2.2
    ⟨7, 10, false, some ("My Custom Label")⟩ 7 10 ("Kick In") ("My Custom Label")
    rfl rfl

end FestivalPatch
